import Mathlib

/-!
# Verification of the arxiv-frontpage content curation pipeline

Shallow embedding of `frontpage/datastream.py` (class `DataStream`) together
with the small helpers it uses, and proofs of the specification claims about
deduplication, archive partitioning, training-set accumulation, section
assignment (`upper_limit`) and final content assembly.

Modelling conventions:
* JSON records become Lean structures with the fields the pipeline touches.
* Python `float` probabilities and thresholds become `ℚ`; every claim under
  consideration is about comparisons and counting, which only use the ordered
  field structure, so this is faithful.
* Python dicts with string keys become association lists updated with
  `dictInsert` (updating an existing key keeps its position, a new key is
  appended — exactly CPython insertion-order semantics), or total functions
  `String → _` when only lookup and pointwise update occur.
* Generators become `List` transformations; the pipeline materialises every
  stream it consumes (`collect()`, `for` loops), so list semantics agree.
* Global configuration from `frontpage/constants.py` (not part of the sources
  here) is passed as parameters: `LABELS : List String` and
  `THRESHOLDS : String → ℚ`.
-/

/-- Python dict insertion on an association list: overwriting an existing key
keeps its position, a fresh key is appended at the end. -/
def dictInsert (d : List (String × ℕ)) (k : String) (v : ℕ) : List (String × ℕ) :=
  if d.any (fun p => p.1 = k) then
    d.map (fun p => if p.1 = k then (k, v) else p)
  else d ++ [(k, v)]

/-- The distinct elements of a list in order of first occurrence (the key order
produced by a Python `defaultdict` grouping, as `lazylines.nest_by` builds). -/
def uniqFirst : List String → List String
  | [] => []
  | x :: xs => x :: (uniqFirst xs).filter (fun y => !(y = x : Bool))

/-- Modelled from the spec: `dedup_stream` lives in `frontpage/utils.py`, which
is not among the sources; per spec §4.1 it "emits each record the first time
its `key` value is seen; all subsequent records sharing that key value are
dropped", as a pure stream transform preserving the order of the retained
records. `seen` is the set of key values already emitted. -/
def dedupGo {α : Type} (key : α → String) (seen : List String) : List α → List α
  | [] => []
  | x :: xs =>
    if key x ∈ seen then dedupGo key seen xs
    else x :: dedupGo key (key x :: seen) xs

/-- Modelled from the spec: `dedup_stream(stream, key)` of `frontpage/utils.py`
(spec §4.1), starting from an empty seen-set. -/
def dedupStream {α : Type} (key : α → String) (l : List α) : List α :=
  dedupGo key [] l

/-- A raw downloaded record, the JSON shape produced by ingestion and consumed
by `save_clean_download_stream` / `get_clean_download_stream`
(fields `{created, title, abstract, sentences, url}`). -/
structure RawRec where
  created : String
  title : String
  abstract : String
  url : String
  sentences : List String
deriving DecidableEq

/-- `d['created'][:10]`: the day key used for archive partitioning. -/
def dayKey (created : String) : String := created.take 10

/-- The partition groups computed by `save_clean_download_stream`: dedup the
raw stream by `abstract`, truncate `created` to the day
(`.mutate(created=lambda d: d['created'][:10])`), group by `created`
(`.nest_by("created")`; groups appear in first-occurrence order and
`nest_by` strips the group key from the subset items), and write each group
with `{**ex, "created": group['created']}`, i.e. every written record carries
the group's day key in `created`. -/
def partitionGroups (raw : List RawRec) : List (String × List RawRec) :=
  let cleaned := (dedupStream (fun r => r.abstract) raw).map
    (fun r => { r with created := dayKey r.created })
  (uniqFirst (cleaned.map (fun r => r.created))).map
    (fun d => (d, (cleaned.filter (fun r => r.created = d)).map
      (fun r => { r with created := d })))

/-- The clean-downloads folder as a map from file name to file content (a
`.jsonl` file is its list of records; serialisation is deterministic, so
equality of record lists models byte-identical files). -/
def FileSystem : Type := String → Option (List RawRec)

/-- `srsly.write_jsonl(filepath, g)`: wholesale overwrite of one file. -/
def fsWrite (fs : FileSystem) (name : String) (content : List RawRec) : FileSystem :=
  fun n => if n = name then some content else fs n

/-- The write loop of `save_clean_download_stream`: one
`srsly.write_jsonl(CLEAN_DOWNLOADS_FOLDER / f"{group['created']}.jsonl", g)`
per partition group, in group order. -/
def writeGroups (fs : FileSystem) : List (String × List RawRec) → FileSystem
  | [] => fs
  | g :: gs => writeGroups (fsWrite fs (g.1 ++ ".jsonl") g.2) gs

/-- `save_clean_download_stream(raw)` acting on the clean-downloads folder:
partition the deduplicated raw stream by day and rewrite each day's file. -/
def saveCleanDownloadStream (fs : FileSystem) (raw : List RawRec) : FileSystem :=
  writeGroups fs (partitionGroups raw)

/-- An annotation record: one `(text, label, answer)` judgment
(`answer ∈ {accept, reject, ignore}` per the spec data model, but the code
only tests for the two accepted strings). -/
structure AnnotRec where
  text : String
  label : String
  answer : String
deriving DecidableEq

/-- A per-label training row, the dict `{"text": ex["text"], ex["label"]: outcome}`
yielded by `_sentence_data_to_train_format` (a structure is an exact embedding
whenever the label is not literally the reserved field name `"text"`). -/
structure TrainRow where
  text : String
  label : String
  outcome : ℕ
deriving DecidableEq

/-- `DataStream._sentence_data_to_train_format`: `accept ↦ 1`, `reject ↦ 0`,
anything else (in particular `ignore`) yields nothing. -/
def sentenceDataToTrainFormat : List AnnotRec → List TrainRow
  | [] => []
  | ex :: rest =>
    if ex.answer = "accept" then ⟨ex.text, ex.label, 1⟩ :: sentenceDataToTrainFormat rest
    else if ex.answer = "reject" then ⟨ex.text, ex.label, 0⟩ :: sentenceDataToTrainFormat rest
    else sentenceDataToTrainFormat rest

/-- An accumulated training example `{text, categories}`. -/
structure TrainEx where
  text : String
  categories : List (String × ℕ)
deriving DecidableEq

/-- `DataStream._accumulate_train_stream`: `nest_by("text")` groups the rows by
`text` (group keys in first-occurrence order, the group key stripped from the
subset items), then `mutate(categories=lambda d: {k: v for ex in d['subset']
for k, v in ex.items()})` folds every `{label: outcome}` pair of the group into
one dict (later pairs overwrite earlier ones on the same key), and
`drop("subset")` leaves `{text, categories}`. -/
def accumulateTrainStream (rows : List TrainRow) : List TrainEx :=
  (uniqFirst (rows.map (fun r => r.text))).map
    (fun t => ⟨t, (rows.filter (fun r => r.text = t)).foldl
      (fun d r => dictInsert d r.label r.outcome) []⟩)

/-- One line of an annotation file `ANNOT_FOLDER / f"{label}.jsonl"`: a `text`
with an optional `categories` and an optional legacy `cats` mapping. -/
structure AnnotFileEx where
  text : String
  categories : Option (List (String × ℕ))
  cats : Option (List (String × ℕ))
deriving DecidableEq

/-- The per-example compatibility shim of `get_train_stream`:
`if "categories" not in ex and "cats" in ex: ex["categories"] = ex["cats"]`. -/
def fixCats (ex : AnnotFileEx) : AnnotFileEx :=
  if ex.categories = none ∧ ex.cats ≠ none then { ex with categories := ex.cats } else ex

/-- `DataStream.get_train_stream`: for each label in `LABELS`, read
`ANNOT_FOLDER / f"{label}.jsonl"` (modelled by `files label`), apply the
`cats → categories` shim, and append every example.  Note: it performs no
grouping by `text` and never calls `_accumulate_train_stream`. -/
def getTrainStream (files : String → List AnnotFileEx) (LABELS : List String) :
    List AnnotFileEx :=
  LABELS.flatMap (fun lab => (files lab).map fixCats)

/-- A clean-stream record with per-sentence predictions attached: the shape
entering `upper_limit`.  `preds` is one `label ↦ probability` mapping per
sentence, in sentence order (`render_html` zips it against `sentences`).
Clean archive records carry no `sections` key, so the input type has none. -/
structure Doc where
  created : String
  title : String
  abstract : String
  url : String
  sentences : List String
  preds : List (List (String × ℚ))
deriving DecidableEq

/-- Modelled from the spec: `add_predictions` lives in `frontpage/utils.py`,
which is not among the sources; per spec §4.5.1 the prediction "is actually
computed per sentence, producing an ordered sequence of per-sentence
label-probability mappings", attached to the record as `preds`. -/
def addPredictions (predict : String → List (String × ℚ)) (r : RawRec) : Doc :=
  { created := r.created, title := r.title, abstract := r.abstract, url := r.url,
    sentences := r.sentences, preds := r.sentences.map predict }

/-- A record as emitted by `upper_limit`: the input record plus the `sections`
list it accumulated.  `upper_limit` deduplicates `sections` via
`list(set(...))`; CPython set order is arbitrary, so we keep first-added order
— every claim is about membership only. -/
structure SectionedDoc where
  doc : Doc
  sections : List String
deriving DecidableEq

/-- `tracker[name] += 1`: pointwise bump of the per-label counter. -/
def bump (t : String → ℕ) (name : String) : String → ℕ :=
  fun m => if m = name then t name + 1 else t m

/-- `ex['sections'].append(name); ex['sections'] = list(set(ex['sections']))`:
membership-preserving add. -/
def addSection (secs : List String) (name : String) : List String :=
  if name ∈ secs then secs else secs ++ [name]

/-- The quota literal `limit = 50` of `upper_limit`. -/
def quotaLimit : ℕ := 50

/-- The guard of `upper_limit`:
`name in tracker and proba > THRESHOLDS[name] and tracker[name] < limit`
(`tracker` has exactly the keys of `LABELS`). -/
def qualifies (LABELS : List String) (THRESHOLDS : String → ℚ)
    (t : String → ℕ) (name : String) (proba : ℚ) : Prop :=
  name ∈ LABELS ∧ THRESHOLDS name < proba ∧ t name < quotaLimit

instance (LABELS : List String) (THRESHOLDS : String → ℚ)
    (t : String → ℕ) (name : String) (proba : ℚ) :
    Decidable (qualifies LABELS THRESHOLDS t name proba) := by
  unfold qualifies; infer_instance

/-- The innermost loop of `upper_limit` over `preds.items()` of one sentence:
threads the tracker, the record's accumulated `sections`, and the number of
`yield`s performed for this record so far. -/
def procItems (LABELS : List String) (THRESHOLDS : String → ℚ)
    (t : String → ℕ) (secs : List String) (k : ℕ) :
    List (String × ℚ) → (String → ℕ) × List String × ℕ
  | [] => (t, secs, k)
  | (name, proba) :: rest =>
    if qualifies LABELS THRESHOLDS t name proba then
      procItems LABELS THRESHOLDS (bump t name) (addSection secs name) (k + 1) rest
    else
      procItems LABELS THRESHOLDS t secs k rest

/-- The middle loop of `upper_limit` over `ex['preds']` (one entry per
sentence). -/
def procSents (LABELS : List String) (THRESHOLDS : String → ℚ)
    (t : String → ℕ) (secs : List String) (k : ℕ) :
    List (List (String × ℚ)) → (String → ℕ) × List String × ℕ
  | [] => (t, secs, k)
  | sent :: rest =>
    let s := procItems LABELS THRESHOLDS t secs k sent
    procSents LABELS THRESHOLDS s.1 s.2.1 s.2.2 rest

/-- `all(v == limit for v in tracker.values())`. -/
def allFull (LABELS : List String) (t : String → ℕ) : Prop :=
  ∀ lab ∈ LABELS, t lab = quotaLimit

instance (LABELS : List String) (t : String → ℕ) :
    Decidable (allFull LABELS t) := by
  unfold allFull; infer_instance

/-- The `for ex in stream` loop of `upper_limit`.  Every `yield ex` hands out a
reference to the one dict being mutated, and the pipeline materialises the
generator with `.collect()` before anything reads it, so each of a record's
emissions is observed with the record's final `sections`; the embedding
therefore emits `k` copies of the finished record, where `k` is the number of
guard passes (= `yield`s) for that record.  After each record the loop checks
`all(v == limit for v in tracker.values())` and breaks. -/
def upperLimitGo (LABELS : List String) (THRESHOLDS : String → ℚ)
    (t : String → ℕ) : List Doc → List SectionedDoc
  | [] => []
  | ex :: rest =>
    let s := procSents LABELS THRESHOLDS t [] 0 ex.preds
    let out := List.replicate s.2.2 (⟨ex, s.2.1⟩ : SectionedDoc)
    if allFull LABELS s.1 then out
    else out ++ upperLimitGo LABELS THRESHOLDS s.1 rest

/-- `upper_limit(stream)` with the tracker freshly initialised to
`{lab: 0 for lab in LABELS}`. -/
def upperLimit (LABELS : List String) (THRESHOLDS : String → ℚ)
    (docs : List Doc) : List SectionedDoc :=
  upperLimitGo LABELS THRESHOLDS (fun _ => 0) docs

/-- The per-label tracker value after `upper_limit` has consumed the given
records (same traversal and early break as `upperLimitGo`). -/
def trackAfter (LABELS : List String) (THRESHOLDS : String → ℚ)
    (t : String → ℕ) : List Doc → (String → ℕ)
  | [] => t
  | ex :: rest =>
    let s := procSents LABELS THRESHOLDS t [] 0 ex.preds
    if allFull LABELS s.1 then s.1
    else trackAfter LABELS THRESHOLDS s.1 rest

/-- `DataStream.get_site_stream`: take the first 1000 clean records
(`.head(1000)`), attach per-sentence predictions
(`.pipe(add_predictions, model=model)`), and filter through `upper_limit`. -/
def getSiteStream (LABELS : List String) (THRESHOLDS : String → ℚ)
    (predict : String → List (String × ℚ)) (clean : List RawRec) :
    List SectionedDoc :=
  upperLimit LABELS THRESHOLDS ((clean.take 1000).map (addPredictions predict))

/-- `pred[section]` inside `render_html`: dict lookup of the section's
probability in one sentence's prediction mapping (the code assumes the model
emits a probability for every configured label; a missing key would raise, so
the default branch is never taken on real inputs). -/
def lookupProb (pred : List (String × ℚ)) (sec : String) : ℚ :=
  ((pred.find? (fun p => p.1 = sec)).map (fun p => p.2)).getD 0

/-- `round(proba, 3)`: rounding to three decimal places (Python rounds on
binary floats with round-half-to-even; the exact tie behaviour is immaterial
to every claim, which never inspects the rendered HTML). -/
def round3 (q : ℚ) : ℚ := (round (q * 1000) : ℤ) / 1000

/-- The sentence loop of `render_html(item, section)`: concatenate the
sentences, wrapping a sentence in the highlight span exactly when its
probability for `section` strictly exceeds that section's threshold. -/
def renderBody (THRESHOLDS : String → ℚ) (sec : String) :
    List (String × List (String × ℚ)) → String
  | [] => ""
  | (sent, pred) :: rest =>
    let proba := lookupProb pred sec
    let addition :=
      if THRESHOLDS sec < proba then
        "<span class='px-1 mx-1 bg-yellow-200'>" ++ sent ++ " " ++
          "<span style='font-size: 0.65rem;' class='text-purple-500 font-bold'>" ++
          toString (round3 proba) ++ "</span>" ++ "</span>"
      else sent
    addition ++ renderBody THRESHOLDS sec rest

/-- `render_html(item, section)` of `get_site_content`. -/
def renderHtml (THRESHOLDS : String → ℚ) (item : Doc) (sec : String) : String :=
  "<p>" ++ renderBody THRESHOLDS sec (item.sentences.zip item.preds) ++ "</p>"

/-- One entry of a section's `content` list: `editable = item.copy()` plus the
rendered `html` and a defaulted `categories` (site-stream records have none, so
`editable["categories"] = {}` always fires). -/
structure ContentItem where
  item : SectionedDoc
  html : String
  categories : List (String × ℕ)
deriving DecidableEq

/-- `sorted(..., key=lambda d: d['created'])` comparison. -/
def contentLe (a b : ContentItem) : Prop := a.item.doc.created ≤ b.item.doc.created

instance : DecidableRel contentLe := by
  unfold contentLe; infer_instance

/-- `DataStream.get_site_content`: dedup the site stream by `abstract`; for
each configured section label collect, in stream order, a rendered copy of
every record whose `sections` contain that label (the dict-of-buckets loop;
the code indexes `sections[section]` and assumes every attached section label
is configured); then per section dedup the bucket again by `abstract`, sort
ascending by `created` and reverse.  Python's `sorted` is specified as a
stable ascending sort; `List.insertionSort` realises exactly that contract.
The configured sections are passed as their label list, the section order of
`CONFIG.sections`. -/
def getSiteContent (sectionLabels : List String) (THRESHOLDS : String → ℚ)
    (stream0 : List SectionedDoc) : List (String × List ContentItem) :=
  let siteStream := dedupStream (fun s => s.doc.abstract) stream0
  sectionLabels.map (fun lab =>
    let bucket := (siteStream.filter (fun it => decide (lab ∈ it.sections))).map
      (fun it => (⟨it, renderHtml THRESHOLDS it.doc lab, []⟩ : ContentItem))
    let uniq := dedupStream (fun c => c.item.doc.abstract) bucket
    (lab, (List.insertionSort contentLe uniq).reverse))

/-- Spec-side rendering of the claim about deduplication: walking the stream
with the already-traversed records in `earlier`, a record is emitted exactly
when its key value has not appeared earlier in the stream. -/
def firstOccAux {α : Type} (key : α → String) (earlier : List α) : List α → List α
  | [] => []
  | x :: xs =>
    if ∀ q ∈ earlier, ¬ key q = key x then
      x :: firstOccAux key (earlier ++ [x]) xs
    else firstOccAux key (earlier ++ [x]) xs

/-- Spec-side dedup: keep exactly the records whose key has not appeared
earlier in the stream. -/
def firstOcc {α : Type} (key : α → String) (l : List α) : List α :=
  firstOccAux key [] l

theorem dedupGo_eq_firstOccAux {α : Type} (key : α → String) :
    ∀ (l : List α) (seen : List String) (earlier : List α),
      (∀ s, s ∈ seen ↔ ∃ q ∈ earlier, key q = s) →
      dedupGo key seen l = firstOccAux key earlier l := by
  intro l
  induction l with
  | nil => intro seen earlier _; rfl
  | cons x xs ih =>
    intro seen earlier hinv
    by_cases hx : key x ∈ seen
    · have hne : ¬ ∀ q ∈ earlier, ¬ key q = key x := by
        intro hall
        rcases (hinv (key x)).1 hx with ⟨q, hq, hqk⟩
        exact hall q hq hqk
      simp only [dedupGo, firstOccAux, if_pos hx, if_neg hne]
      apply ih seen (earlier ++ [x])
      intro s
      constructor
      · intro hs
        rcases (hinv s).1 hs with ⟨q, hq, hqk⟩
        exact ⟨q, List.mem_append_left _ hq, hqk⟩
      · rintro ⟨q, hq, hqk⟩
        rcases List.mem_append.1 hq with hq' | hq'
        · exact (hinv s).2 ⟨q, hq', hqk⟩
        · have : q = x := by simpa using hq'
          subst this
          exact hqk ▸ hx
    · have hyes : ∀ q ∈ earlier, ¬ key q = key x := by
        intro q hq hqk
        exact hx ((hinv (key x)).2 ⟨q, hq, hqk⟩)
      simp only [dedupGo, firstOccAux, if_neg hx, if_pos hyes]
      congr 1
      apply ih (key x :: seen) (earlier ++ [x])
      intro s
      constructor
      · intro hs
        rcases List.mem_cons.1 hs with hs' | hs'
        · exact ⟨x, List.mem_append_right _ (List.mem_singleton_self x), hs'.symm⟩
        · rcases (hinv s).1 hs' with ⟨q, hq, hqk⟩
          exact ⟨q, List.mem_append_left _ hq, hqk⟩
      · rintro ⟨q, hq, hqk⟩
        rcases List.mem_append.1 hq with hq' | hq'
        · exact List.mem_cons_of_mem _ ((hinv s).2 ⟨q, hq', hqk⟩)
        · have : q = x := by simpa using hq'
          subst this
          exact hqk ▸ List.mem_cons_self _ _

theorem dedupGo_sublist {α : Type} (key : α → String) :
    ∀ (l : List α) (seen : List String), (dedupGo key seen l).Sublist l := by
  intro l
  induction l with
  | nil => intro seen; simp [dedupGo]
  | cons x xs ih =>
    intro seen
    by_cases hx : key x ∈ seen
    · simp only [dedupGo, if_pos hx]
      exact (ih seen).cons x
    · simp only [dedupGo, if_neg hx]
      exact (ih (key x :: seen)).cons₂ x

/-- C6. Deduplication emits a record exactly when its key value has not
appeared earlier in the stream (it equals the spec-side first-occurrence
filter), the retained records keep the input's relative order (the output is a
sublist of the input), and on a newest-first stream of two records sharing a
key only the first — i.e. the more recent — is kept. -/
theorem dedupStream_first_occurrence {α : Type} (key : α → String) (l : List α) :
    dedupStream key l = firstOcc key l ∧
    (dedupStream key l).Sublist l ∧
    (∀ a b : α, key a = key b → dedupStream key [a, b] = [a]) := by
  refine ⟨?_, dedupGo_sublist key l [], ?_⟩
  · exact dedupGo_eq_firstOccAux key l [] [] (by simp)
  · intro a b hab
    simp [dedupStream, dedupGo, hab.symm]

theorem writeGroups_apply (gs : List (String × List RawRec)) :
    ∀ (fs : FileSystem) (n : String),
      writeGroups fs gs n =
        (gs.reverse.find? (fun g => decide (n = g.1 ++ ".jsonl"))).elim (fs n)
          (fun g => some g.2) := by
  induction gs with
  | nil => intro fs n; rfl
  | cons g rest ih =>
    intro fs n
    have hstep : writeGroups fs (g :: rest) n =
        writeGroups (fsWrite fs (g.1 ++ ".jsonl") g.2) rest n := rfl
    rw [hstep, ih]
    rw [List.reverse_cons, List.find?_append]
    cases hfind : rest.reverse.find? (fun g => decide (n = g.1 ++ ".jsonl")) with
    | some g' => rfl
    | none =>
      show fsWrite fs (g.1 ++ ".jsonl") g.2 n =
        (Option.orElse none fun _ =>
          List.find? (fun g => decide (n = g.1 ++ ".jsonl")) [g]).elim (fs n)
          (fun g => some g.2)
      by_cases hn : n = g.1 ++ ".jsonl"
      · simp [List.find?, hn, fsWrite]
      · simp [List.find?, hn, fsWrite]

/-- C7. Running the Partitioned Archive Writer twice over the same raw input
leaves the clean-downloads folder in the same state as running it once: each
run recomputes the same partition groups from the input alone and rewrites
each day's file wholesale, so the second run overwrites every file with the
content it already has. -/
theorem saveCleanDownloadStream_idempotent (fs : FileSystem) (raw : List RawRec) :
    saveCleanDownloadStream (saveCleanDownloadStream fs raw) raw =
      saveCleanDownloadStream fs raw := by
  funext n
  show writeGroups (saveCleanDownloadStream fs raw) (partitionGroups raw) n =
    writeGroups fs (partitionGroups raw) n
  rw [writeGroups_apply, writeGroups_apply (partitionGroups raw) fs n]
  cases hfind : (partitionGroups raw).reverse.find?
      (fun g => decide (n = g.1 ++ ".jsonl")) with
  | some g => simp
  | none =>
    simp only [Option.elim]
    show writeGroups fs (partitionGroups raw) n = fs n
    rw [writeGroups_apply, hfind]
    rfl

theorem uniqFirst_nodup : ∀ l : List String, (uniqFirst l).Nodup := by
  intro l
  induction l with
  | nil => exact List.nodup_nil
  | cons x xs ih =>
    refine List.nodup_cons.2 ⟨?_, ih.filter _⟩
    intro hx
    have := (List.mem_filter.1 hx).2
    simp at this

/-- C4 (amended). Every output of the Training Set Accumulator
`_accumulate_train_stream` contains no two Training Examples with the same
`text`: it produces exactly one record per distinct text, in first-occurrence
order.  (The train operation itself uses `get_train_stream`, which bypasses
the accumulator; see the counterexample.) -/
theorem accumulateTrainStream_unique_text (rows : List TrainRow) :
    (accumulateTrainStream rows).Pairwise (fun a b => ¬ a.text = b.text) := by
  unfold accumulateTrainStream
  rw [List.pairwise_map]
  exact uniqFirst_nodup _

/-- C4 (counterexample). The training stream actually used by the train
operation, `get_train_stream`, concatenates the per-label annotation files
without any grouping by `text`: with two labels whose files both contain an
example for the text `"t"`, its output holds two Training Examples with the
same `text`. -/
theorem getTrainStream_duplicate_text :
    ¬ (getTrainStream (fun _ => [⟨"t", some [("lab", 1)], none⟩]) ["L1", "L2"]).Pairwise
        (fun a b => ¬ a.text = b.text) := by
  decide

/-- Spec-side outcome mapping: `accept ↦ 1`, `reject ↦ 0`. -/
def specOutcome (answer : String) : ℕ := if answer = "accept" then 1 else 0

/-- Spec-side rendering of the accumulation claim: discard records with answer
`ignore`, map `accept ↦ 1` and `reject ↦ 0`, group by `text` (one group per
distinct text, in first-occurrence order), and fold the observed
`(label, outcome)` pairs of each group into one mapping in stream order, a
later pair overwriting an earlier one on the same label. -/
def specAccumulate (anns : List AnnotRec) : List TrainEx :=
  let kept := anns.filter (fun a => decide (¬ a.answer = "ignore"))
  (uniqFirst (kept.map (fun a => a.text))).map
    (fun t => ⟨t, ((kept.filter (fun a => decide (a.text = t))).map
        (fun a => (a.label, specOutcome a.answer))).foldl
        (fun d p => dictInsert d p.1 p.2) []⟩)

theorem stf_eq_filter_map :
    ∀ anns : List AnnotRec,
      (∀ a ∈ anns, a.answer = "accept" ∨ a.answer = "reject" ∨ a.answer = "ignore") →
      sentenceDataToTrainFormat anns =
        (anns.filter (fun a => decide (¬ a.answer = "ignore"))).map
          (fun a => (⟨a.text, a.label, specOutcome a.answer⟩ : TrainRow)) := by
  intro anns h
  induction anns with
  | nil => rfl
  | cons a rest ih =>
    have hrest := fun b hb => h b (List.mem_cons_of_mem a hb)
    rcases h a (List.mem_cons_self a rest) with ha | ha | ha
    · simp [sentenceDataToTrainFormat, ha, specOutcome, ih hrest]
    · simp [sentenceDataToTrainFormat, ha, specOutcome, ih hrest]
    · simp [sentenceDataToTrainFormat, ha, ih hrest]

theorem mem_dictInsert {q : String × ℕ} {d : List (String × ℕ)} {k : String} {v : ℕ} :
    q ∈ dictInsert d k v → q.1 = k ∨ q ∈ d := by
  unfold dictInsert
  split
  · intro hq
    rcases List.mem_map.1 hq with ⟨p, hp, hpq⟩
    by_cases hk : p.1 = k
    · left; rw [← hpq]; simp [hk]
    · right; rw [← hpq]; simpa [hk] using hp
  · intro hq
    rcases List.mem_append.1 hq with hq' | hq'
    · exact Or.inr hq'
    · left; simp at hq'; simp [hq']

theorem mem_foldl_dictInsert :
    ∀ (rows : List TrainRow) (d : List (String × ℕ)) (q : String × ℕ),
      q ∈ rows.foldl (fun d r => dictInsert d r.label r.outcome) d →
      (∃ r ∈ rows, r.label = q.1) ∨ q ∈ d := by
  intro rows
  induction rows with
  | nil => intro d q hq; exact Or.inr hq
  | cons r rest ih =>
    intro d q hq
    rcases ih (dictInsert d r.label r.outcome) q hq with hcase | hcase
    · rcases hcase with ⟨r', hr', hl⟩
      exact Or.inl ⟨r', List.mem_cons_of_mem r hr', hl⟩
    · rcases mem_dictInsert hcase with hk | hk
      · exact Or.inl ⟨r, List.mem_cons_self r rest, hk.symm⟩
      · exact Or.inr hk

theorem mem_stf :
    ∀ (anns : List AnnotRec) (r : TrainRow), r ∈ sentenceDataToTrainFormat anns →
      ∃ a ∈ anns, ¬ a.answer = "ignore" ∧ a.text = r.text ∧ a.label = r.label := by
  intro anns
  induction anns with
  | nil => intro r hr; simp [sentenceDataToTrainFormat] at hr
  | cons a rest ih =>
    intro r hr
    by_cases h1 : a.answer = "accept"
    · rw [sentenceDataToTrainFormat, if_pos h1] at hr
      rcases List.mem_cons.1 hr with hr' | hr'
      · subst hr'
        exact ⟨a, List.mem_cons_self a rest, by simp [h1], rfl, rfl⟩
      · rcases ih r hr' with ⟨b, hb, hbi⟩
        exact ⟨b, List.mem_cons_of_mem a hb, hbi⟩
    · by_cases h2 : a.answer = "reject"
      · rw [sentenceDataToTrainFormat, if_neg h1, if_pos h2] at hr
        rcases List.mem_cons.1 hr with hr' | hr'
        · subst hr'
          exact ⟨a, List.mem_cons_self a rest, by simp [h2], rfl, rfl⟩
        · rcases ih r hr' with ⟨b, hb, hbi⟩
          exact ⟨b, List.mem_cons_of_mem a hb, hbi⟩
      · rw [sentenceDataToTrainFormat, if_neg h1, if_neg h2] at hr
        rcases ih r hr with ⟨b, hb, hbi⟩
        exact ⟨b, List.mem_cons_of_mem a hb, hbi⟩

/-- C5. On annotation streams over the spec's answer alphabet, the training
accumulation pipeline (`_sentence_data_to_train_format` then
`_accumulate_train_stream`) computes exactly the spec-side accumulation:
`ignore` discarded, `accept ↦ 1`, `reject ↦ 0`, grouped by `text`, with the
observed `(label, outcome)` pairs folded in stream order so the
later-processed value wins; and every key of a produced `categories` mapping
is the label of some non-ignored annotation for that text. -/
theorem accumulate_matches_spec (anns : List AnnotRec)
    (h : ∀ a ∈ anns, a.answer = "accept" ∨ a.answer = "reject" ∨ a.answer = "ignore") :
    accumulateTrainStream (sentenceDataToTrainFormat anns) = specAccumulate anns ∧
    ∀ e ∈ accumulateTrainStream (sentenceDataToTrainFormat anns),
      ∀ p ∈ e.categories,
        ∃ a ∈ anns, ¬ a.answer = "ignore" ∧ a.text = e.text ∧ a.label = p.1 := by
  constructor
  · rw [stf_eq_filter_map anns h]
    unfold accumulateTrainStream specAccumulate
    simp only [List.map_map, List.filter_map, List.foldl_map]
    rfl
  · intro e he p hp
    rcases List.mem_map.1 he with ⟨t, _, het⟩
    have hecat : e.categories =
        ((sentenceDataToTrainFormat anns).filter (fun r => decide (r.text = t))).foldl
          (fun d r => dictInsert d r.label r.outcome) [] := by
      rw [← het]
    have hetext : e.text = t := by rw [← het]
    rw [hecat] at hp
    rcases mem_foldl_dictInsert _ [] p hp with hcase | hcase
    · rcases hcase with ⟨r, hr, hl⟩
      have hr' := List.mem_filter.1 hr
      rcases mem_stf anns r hr'.1 with ⟨a, ha, hig, htext, hlabel⟩
      refine ⟨a, ha, hig, ?_, ?_⟩
      · rw [htext, hetext]
        exact of_decide_eq_true hr'.2
      · rw [hlabel, hl]
    · simp at hcase

theorem mem_addSection {x n : String} {secs : List String} :
    x ∈ addSection secs n ↔ x ∈ secs ∨ x = n := by
  unfold addSection
  split
  · rename_i hn
    constructor
    · exact Or.inl
    · rintro (hx | rfl)
      · exact hx
      · exact hn
  · simp

theorem procItems_tracker_mono (L : List String) (TH : String → ℚ) :
    ∀ (items : List (String × ℚ)) (t : String → ℕ) (secs : List String) (k : ℕ)
      (m : String), t m ≤ (procItems L TH t secs k items).1 m := by
  intro items
  induction items with
  | nil => intro t secs k m; exact le_refl _
  | cons it rest ih =>
    intro t secs k m
    rw [procItems]
    split
    · refine le_trans ?_ (ih (bump t it.1) (addSection secs it.1) (k + 1) m)
      unfold bump
      by_cases hm : m = it.1
      · subst hm; simp
      · simp [hm]
    · exact ih t secs k m

theorem procItems_tracker_le (L : List String) (TH : String → ℚ) :
    ∀ (items : List (String × ℚ)) (t : String → ℕ) (secs : List String) (k : ℕ)
      (m : String), t m ≤ quotaLimit → (procItems L TH t secs k items).1 m ≤ quotaLimit := by
  intro items
  induction items with
  | nil => intro t secs k m hm; exact hm
  | cons it rest ih =>
    intro t secs k m hm
    rw [procItems]
    split
    · rename_i hq
      refine ih (bump t it.1) (addSection secs it.1) (k + 1) m ?_
      unfold bump
      by_cases hmeq : m = it.1
      · subst hmeq
        simp only [if_pos rfl]
        exact hq.2.2
      · simpa [hmeq] using hm
    · exact ih t secs k m hm

theorem procItems_section_strict (L : List String) (TH : String → ℚ) :
    ∀ (items : List (String × ℚ)) (t : String → ℕ) (secs : List String) (k : ℕ)
      (l : String), l ∉ secs → l ∈ (procItems L TH t secs k items).2.1 →
      t l < (procItems L TH t secs k items).1 l := by
  intro items
  induction items with
  | nil => intro t secs k l hns hl; exact absurd hl hns
  | cons it rest ih =>
    intro t secs k l hns hl
    rw [procItems] at hl ⊢
    split at hl <;> rename_i hq
    · rw [if_pos hq]
      by_cases hleq : l = it.1
      · have h1 : bump t it.1 l = t l + 1 := by unfold bump; rw [if_pos hleq, ← hleq]
        have h2 := procItems_tracker_mono L TH rest (bump t it.1) (addSection secs it.1)
          (k + 1) l
        rw [h1] at h2
        omega
      · have hns' : l ∉ addSection secs it.1 := by
          intro hmem
          rcases mem_addSection.1 hmem with hc | hc
          · exact hns hc
          · exact hleq hc
        have hstep := ih (bump t it.1) (addSection secs it.1) (k + 1) l hns' hl
        have hb : bump t it.1 l = t l := by unfold bump; rw [if_neg hleq]
        rw [← hb]
        exact hstep
    · rw [if_neg hq]
      exact ih t secs k l hns hl

theorem procItems_section_origin (L : List String) (TH : String → ℚ) :
    ∀ (items : List (String × ℚ)) (t : String → ℕ) (secs : List String) (k : ℕ)
      (l : String), l ∈ (procItems L TH t secs k items).2.1 →
      l ∈ secs ∨ ∃ p : ℚ, (l, p) ∈ items ∧ TH l < p := by
  intro items
  induction items with
  | nil => intro t secs k l hl; exact Or.inl hl
  | cons it rest ih =>
    intro t secs k l hl
    rw [procItems] at hl
    split at hl <;> rename_i hq
    · rcases ih (bump t it.1) (addSection secs it.1) (k + 1) l hl with hc | hc
      · rcases mem_addSection.1 hc with hc' | hc'
        · exact Or.inl hc'
        · subst hc'
          exact Or.inr ⟨it.2, List.mem_cons_self it rest, hq.2.1⟩
      · rcases hc with ⟨p, hp, hpth⟩
        exact Or.inr ⟨p, List.mem_cons_of_mem it hp, hpth⟩
    · rcases ih t secs k l hl with hc | hc
      · exact Or.inl hc
      · rcases hc with ⟨p, hp, hpth⟩
        exact Or.inr ⟨p, List.mem_cons_of_mem it hp, hpth⟩

theorem procItems_section_labels (L : List String) (TH : String → ℚ) :
    ∀ (items : List (String × ℚ)) (t : String → ℕ) (secs : List String) (k : ℕ)
      (l : String), l ∈ (procItems L TH t secs k items).2.1 →
      l ∈ secs ∨ l ∈ L := by
  intro items
  induction items with
  | nil => intro t secs k l hl; exact Or.inl hl
  | cons it rest ih =>
    intro t secs k l hl
    rw [procItems] at hl
    split at hl <;> rename_i hq
    · rcases ih (bump t it.1) (addSection secs it.1) (k + 1) l hl with hc | hc
      · rcases mem_addSection.1 hc with hc' | hc'
        · exact Or.inl hc'
        · subst hc'
          exact Or.inr hq.1
      · exact Or.inr hc
    · exact ih t secs k l hl

theorem procItems_tracker_outside (L : List String) (TH : String → ℚ) :
    ∀ (items : List (String × ℚ)) (t : String → ℕ) (secs : List String) (k : ℕ)
      (m : String), m ∉ L → (procItems L TH t secs k items).1 m = t m := by
  intro items
  induction items with
  | nil => intro t secs k m _; rfl
  | cons it rest ih =>
    intro t secs k m hm
    rw [procItems]
    split <;> rename_i hq
    · rw [ih (bump t it.1) (addSection secs it.1) (k + 1) m hm]
      unfold bump
      have : ¬ m = it.1 := by
        intro hc
        exact hm (hc ▸ hq.1)
      rw [if_neg this]
    · exact ih t secs k m hm

theorem procItems_frozen (L : List String) (TH : String → ℚ) :
    ∀ (items : List (String × ℚ)) (t : String → ℕ) (secs : List String) (k : ℕ),
      allFull L t → procItems L TH t secs k items = (t, secs, k) := by
  intro items
  induction items with
  | nil => intro t secs k _; rfl
  | cons it rest ih =>
    intro t secs k hfull
    rw [procItems]
    have hq : ¬ qualifies L TH t it.1 it.2 := by
      rintro ⟨hmem, _, hlt⟩
      rw [hfull it.1 hmem] at hlt
      exact lt_irrefl _ hlt
    rw [if_neg hq]
    exact ih t secs k hfull

theorem procSents_tracker_mono (L : List String) (TH : String → ℚ) :
    ∀ (sents : List (List (String × ℚ))) (t : String → ℕ) (secs : List String)
      (k : ℕ) (m : String), t m ≤ (procSents L TH t secs k sents).1 m := by
  intro sents
  induction sents with
  | nil => intro t secs k m; exact le_refl _
  | cons sent rest ih =>
    intro t secs k m
    rw [procSents]
    exact le_trans (procItems_tracker_mono L TH sent t secs k m)
      (ih _ _ _ m)

theorem procSents_tracker_le (L : List String) (TH : String → ℚ) :
    ∀ (sents : List (List (String × ℚ))) (t : String → ℕ) (secs : List String)
      (k : ℕ) (m : String), t m ≤ quotaLimit →
      (procSents L TH t secs k sents).1 m ≤ quotaLimit := by
  intro sents
  induction sents with
  | nil => intro t secs k m hm; exact hm
  | cons sent rest ih =>
    intro t secs k m hm
    rw [procSents]
    exact ih _ _ _ m (procItems_tracker_le L TH sent t secs k m hm)

theorem procSents_section_strict (L : List String) (TH : String → ℚ) :
    ∀ (sents : List (List (String × ℚ))) (t : String → ℕ) (secs : List String)
      (k : ℕ) (l : String), l ∉ secs → l ∈ (procSents L TH t secs k sents).2.1 →
      t l < (procSents L TH t secs k sents).1 l := by
  intro sents
  induction sents with
  | nil => intro t secs k l hns hl; exact absurd hl hns
  | cons sent rest ih =>
    intro t secs k l hns hl
    rw [procSents] at hl ⊢
    by_cases hstep : l ∈ (procItems L TH t secs k sent).2.1
    · have h1 := procItems_section_strict L TH sent t secs k l hns hstep
      have h2 := procSents_tracker_mono L TH rest (procItems L TH t secs k sent).1
        (procItems L TH t secs k sent).2.1 (procItems L TH t secs k sent).2.2 l
      exact lt_of_lt_of_le h1 h2
    · have h1 := ih (procItems L TH t secs k sent).1 (procItems L TH t secs k sent).2.1
        (procItems L TH t secs k sent).2.2 l hstep hl
      have h2 := procItems_tracker_mono L TH sent t secs k l
      exact lt_of_le_of_lt h2 h1

theorem procSents_section_origin (L : List String) (TH : String → ℚ) :
    ∀ (sents : List (List (String × ℚ))) (t : String → ℕ) (secs : List String)
      (k : ℕ) (l : String), l ∈ (procSents L TH t secs k sents).2.1 →
      l ∈ secs ∨ ∃ sent ∈ sents, ∃ p : ℚ, (l, p) ∈ sent ∧ TH l < p := by
  intro sents
  induction sents with
  | nil => intro t secs k l hl; exact Or.inl hl
  | cons sent rest ih =>
    intro t secs k l hl
    rw [procSents] at hl
    rcases ih (procItems L TH t secs k sent).1 (procItems L TH t secs k sent).2.1
        (procItems L TH t secs k sent).2.2 l hl with hc | hc
    · rcases procItems_section_origin L TH sent t secs k l hc with hc' | hc'
      · exact Or.inl hc'
      · rcases hc' with ⟨p, hp, hpth⟩
        exact Or.inr ⟨sent, List.mem_cons_self sent rest, p, hp, hpth⟩
    · rcases hc with ⟨sent', hsent', p, hp, hpth⟩
      exact Or.inr ⟨sent', List.mem_cons_of_mem sent hsent', p, hp, hpth⟩

theorem procSents_section_labels (L : List String) (TH : String → ℚ) :
    ∀ (sents : List (List (String × ℚ))) (t : String → ℕ) (secs : List String)
      (k : ℕ) (l : String), l ∈ (procSents L TH t secs k sents).2.1 →
      l ∈ secs ∨ l ∈ L := by
  intro sents
  induction sents with
  | nil => intro t secs k l hl; exact Or.inl hl
  | cons sent rest ih =>
    intro t secs k l hl
    rw [procSents] at hl
    rcases ih (procItems L TH t secs k sent).1 (procItems L TH t secs k sent).2.1
        (procItems L TH t secs k sent).2.2 l hl with hc | hc
    · exact procItems_section_labels L TH sent t secs k l hc
    · exact Or.inr hc

theorem procSents_tracker_outside (L : List String) (TH : String → ℚ) :
    ∀ (sents : List (List (String × ℚ))) (t : String → ℕ) (secs : List String)
      (k : ℕ) (m : String), m ∉ L → (procSents L TH t secs k sents).1 m = t m := by
  intro sents
  induction sents with
  | nil => intro t secs k m _; rfl
  | cons sent rest ih =>
    intro t secs k m hm
    rw [procSents]
    rw [ih _ _ _ m hm]
    exact procItems_tracker_outside L TH sent t secs k m hm

theorem procSents_frozen (L : List String) (TH : String → ℚ) :
    ∀ (sents : List (List (String × ℚ))) (t : String → ℕ) (secs : List String)
      (k : ℕ), allFull L t → procSents L TH t secs k sents = (t, secs, k) := by
  intro sents
  induction sents with
  | nil => intro t secs k _; rfl
  | cons sent rest ih =>
    intro t secs k hfull
    rw [procSents, procItems_frozen L TH sent t secs k hfull]
    exact ih t secs k hfull

theorem upperLimitGo_cons (L : List String) (TH : String → ℚ) (t : String → ℕ)
    (ex : Doc) (rest : List Doc) :
    upperLimitGo L TH t (ex :: rest) =
      if allFull L (procSents L TH t [] 0 ex.preds).1 then
        List.replicate (procSents L TH t [] 0 ex.preds).2.2
          (⟨ex, (procSents L TH t [] 0 ex.preds).2.1⟩ : SectionedDoc)
      else
        List.replicate (procSents L TH t [] 0 ex.preds).2.2
          (⟨ex, (procSents L TH t [] 0 ex.preds).2.1⟩ : SectionedDoc) ++
          upperLimitGo L TH (procSents L TH t [] 0 ex.preds).1 rest := rfl

theorem trackAfter_cons (L : List String) (TH : String → ℚ) (t : String → ℕ)
    (ex : Doc) (rest : List Doc) :
    trackAfter L TH t (ex :: rest) =
      if allFull L (procSents L TH t [] 0 ex.preds).1 then
        (procSents L TH t [] 0 ex.preds).1
      else trackAfter L TH (procSents L TH t [] 0 ex.preds).1 rest := rfl

theorem toFinset_card_le_one_of_all_eq {β : Type} [DecidableEq β]
    (lst : List β) (x : β) (h : ∀ a ∈ lst, a = x) : lst.toFinset.card ≤ 1 := by
  refine Finset.card_le_one.2 ?_
  intro a ha b hb
  rw [h a (List.mem_toFinset.1 ha), h b (List.mem_toFinset.1 hb)]

theorem upperLimitGo_quota (L : List String) (TH : String → ℚ) (l : String) :
    ∀ (docs : List Doc) (t : String → ℕ), t l ≤ quotaLimit →
      ((upperLimitGo L TH t docs).filter
        (fun s => decide (l ∈ s.sections))).toFinset.card + t l ≤ quotaLimit := by
  intro docs
  induction docs with
  | nil =>
    intro t ht
    simpa [upperLimitGo] using ht
  | cons ex rest ih =>
    intro t ht
    rw [upperLimitGo_cons]
    have hle := procSents_tracker_le L TH ex.preds t [] 0 l ht
    have hmono := procSents_tracker_mono L TH ex.preds t [] 0 l
    by_cases hsec : l ∈ (procSents L TH t [] 0 ex.preds).2.1
    · have hstrict := procSents_section_strict L TH ex.preds t [] 0 l
        (List.not_mem_nil l) hsec
      have hone : ((List.replicate (procSents L TH t [] 0 ex.preds).2.2
          (⟨ex, (procSents L TH t [] 0 ex.preds).2.1⟩ : SectionedDoc)).filter
          (fun s => decide (l ∈ s.sections))).toFinset.card ≤ 1 := by
        refine toFinset_card_le_one_of_all_eq _
          (⟨ex, (procSents L TH t [] 0 ex.preds).2.1⟩ : SectionedDoc) ?_
        intro a ha
        exact List.eq_of_mem_replicate (List.mem_of_mem_filter ha)
      split
      · omega
      · rw [List.filter_append, List.toFinset_append]
        have hcard := Finset.card_union_le
          (((List.replicate (procSents L TH t [] 0 ex.preds).2.2
            (⟨ex, (procSents L TH t [] 0 ex.preds).2.1⟩ : SectionedDoc)).filter
            (fun s => decide (l ∈ s.sections))).toFinset)
          (((upperLimitGo L TH (procSents L TH t [] 0 ex.preds).1 rest).filter
            (fun s => decide (l ∈ s.sections))).toFinset)
        have hrest := ih (procSents L TH t [] 0 ex.preds).1 hle
        omega
    · have hzero : ((List.replicate (procSents L TH t [] 0 ex.preds).2.2
          (⟨ex, (procSents L TH t [] 0 ex.preds).2.1⟩ : SectionedDoc)).filter
          (fun s => decide (l ∈ s.sections))) = [] := by
        rw [List.filter_eq_nil_iff]
        intro a ha
        rw [List.eq_of_mem_replicate ha]
        simpa using hsec
      split
      · rw [hzero]
        simpa using ht
      · rw [List.filter_append, List.toFinset_append, hzero]
        have hrest := ih (procSents L TH t [] 0 ex.preds).1 hle
        simp only [List.toFinset_nil, Finset.empty_union]
        omega

/-- C1. For every input stream, every prediction function and every label, at
most 50 distinct records emitted by `upper_limit` carry that label in their
`sections`: the quota counter of a label is bumped only under the guard
`tracker[name] < limit`, and every record that acquired the label accounts for
at least one bump of that label's counter. -/
theorem upperLimit_quota_bound (L : List String) (TH : String → ℚ)
    (docs : List Doc) (l : String) :
    ((upperLimit L TH docs).filter
      (fun s => decide (l ∈ s.sections))).toFinset.card ≤ quotaLimit := by
  have h := upperLimitGo_quota L TH l docs (fun _ => 0) (Nat.zero_le _)
  simpa [upperLimit] using h

theorem mem_upperLimitGo (L : List String) (TH : String → ℚ) :
    ∀ (docs : List Doc) (t : String → ℕ) (s : SectionedDoc),
      s ∈ upperLimitGo L TH t docs →
      ∃ ex ∈ docs, s = ⟨ex, (procSents L TH t [] 0 ex.preds).2.1⟩ ∨
        s ∈ upperLimitGo L TH (procSents L TH t [] 0 ex.preds).1 docs.tail := by
  intro docs
  cases docs with
  | nil => intro t s hs; simp [upperLimitGo] at hs
  | cons ex rest =>
    intro t s hs
    rw [upperLimitGo_cons] at hs
    refine ⟨ex, List.mem_cons_self ex rest, ?_⟩
    split at hs
    · exact Or.inl (List.eq_of_mem_replicate hs)
    · rcases List.mem_append.1 hs with hs' | hs'
      · exact Or.inl (List.eq_of_mem_replicate hs')
      · exact Or.inr hs'

theorem upperLimitGo_sections (L : List String) (TH : String → ℚ) :
    ∀ (docs : List Doc) (t : String → ℕ) (s : SectionedDoc),
      s ∈ upperLimitGo L TH t docs →
      s.doc ∈ docs ∧
      ∀ l ∈ s.sections, l ∈ L ∧
        ∃ sent ∈ s.doc.preds, ∃ p : ℚ, (l, p) ∈ sent ∧ TH l < p := by
  intro docs
  induction docs with
  | nil => intro t s hs; simp [upperLimitGo] at hs
  | cons ex rest ih =>
    intro t s hs
    rw [upperLimitGo_cons] at hs
    have hblock : s = (⟨ex, (procSents L TH t [] 0 ex.preds).2.1⟩ : SectionedDoc) →
        s.doc ∈ ex :: rest ∧
        ∀ l ∈ s.sections, l ∈ L ∧
          ∃ sent ∈ s.doc.preds, ∃ p : ℚ, (l, p) ∈ sent ∧ TH l < p := by
      intro hseq
      subst hseq
      refine ⟨List.mem_cons_self ex rest, ?_⟩
      intro l hl
      constructor
      · rcases procSents_section_labels L TH ex.preds t [] 0 l hl with hc | hc
        · exact absurd hc (List.not_mem_nil l)
        · exact hc
      · rcases procSents_section_origin L TH ex.preds t [] 0 l hl with hc | hc
        · exact absurd hc (List.not_mem_nil l)
        · exact hc
    split at hs
    · exact hblock (List.eq_of_mem_replicate hs)
    · rcases List.mem_append.1 hs with hs' | hs'
      · exact hblock (List.eq_of_mem_replicate hs')
      · rcases ih (procSents L TH t [] 0 ex.preds).1 s hs' with ⟨hdoc, hrest⟩
        exact ⟨List.mem_cons_of_mem ex hdoc, hrest⟩

/-- C2. A record emitted by `upper_limit` carries a label in its `sections`
only if at least one of its per-sentence prediction mappings assigns that
label a probability strictly greater than the label's configured threshold;
equality never qualifies. -/
theorem upperLimit_threshold_gate (L : List String) (TH : String → ℚ)
    (docs : List Doc) (s : SectionedDoc) (hs : s ∈ upperLimit L TH docs)
    (l : String) (hl : l ∈ s.sections) :
    ∃ sent ∈ s.doc.preds, ∃ p : ℚ, (l, p) ∈ sent ∧ TH l < p :=
  ((upperLimitGo_sections L TH docs (fun _ => 0) s hs).2 l hl).2

theorem trackAfter_outside (L : List String) (TH : String → ℚ) :
    ∀ (docs : List Doc) (t : String → ℕ) (m : String), m ∉ L →
      trackAfter L TH t docs m = t m := by
  intro docs
  induction docs with
  | nil => intro t m _; rfl
  | cons ex rest ih =>
    intro t m hm
    rw [trackAfter_cons]
    split
    · exact procSents_tracker_outside L TH ex.preds t [] 0 m hm
    · rw [ih _ m hm]
      exact procSents_tracker_outside L TH ex.preds t [] 0 m hm

/-- C10. Every label attached to an emitted record's `sections` is a member of
the configured label set (the guard `name in tracker` filters predicted labels
to the tracker's keys, which are exactly `LABELS`), and a predicted name
outside the label set never moves any counter: outside `LABELS` the tracker
stays at its initial zero. -/
theorem upperLimit_sections_subset_labels (L : List String) (TH : String → ℚ)
    (docs : List Doc) :
    (∀ s ∈ upperLimit L TH docs, ∀ l ∈ s.sections, l ∈ L) ∧
    (∀ m, m ∉ L → trackAfter L TH (fun _ => 0) docs m = 0) := by
  constructor
  · intro s hs l hl
    exact ((upperLimitGo_sections L TH docs (fun _ => 0) s hs).2 l hl).1
  · intro m hm
    exact trackAfter_outside L TH docs (fun _ => 0) m hm

theorem upperLimitGo_full (L : List String) (TH : String → ℚ)
    (docs : List Doc) (t : String → ℕ) (h : allFull L t) :
    upperLimitGo L TH t docs = [] := by
  cases docs with
  | nil => rfl
  | cons ex rest =>
    rw [upperLimitGo_cons, procSents_frozen L TH ex.preds t [] 0 h]
    rw [if_pos h]
    rfl

theorem upperLimitGo_break (L : List String) (TH : String → ℚ) :
    ∀ (pre rest : List Doc) (t : String → ℕ),
      allFull L (trackAfter L TH t pre) →
      upperLimitGo L TH t (pre ++ rest) = upperLimitGo L TH t pre := by
  intro pre
  induction pre with
  | nil =>
    intro rest t h
    have h' : allFull L t := h
    rw [List.nil_append, upperLimitGo_full L TH rest t h']
    rfl
  | cons ex pre' ih =>
    intro rest t h
    rw [trackAfter_cons] at h
    rw [List.cons_append, upperLimitGo_cons, upperLimitGo_cons]
    split at h <;> rename_i hfull
    · rw [if_pos hfull, if_pos hfull]
    · rw [if_neg hfull, if_neg hfull, ih rest _ h]

/-- C3. Once every configured label's counter has reached the quota — i.e. the
tracker left by processing a prefix of the stream satisfies
`all(v == limit for v in tracker.values())` — `upper_limit` terminates: the
records after that prefix are never consulted, so the output on the extended
stream equals the output on the prefix alone, whatever the suffix is. -/
theorem upperLimit_early_termination (L : List String) (TH : String → ℚ)
    (pre rest : List Doc)
    (h : allFull L (trackAfter L TH (fun _ => 0) pre)) :
    upperLimit L TH (pre ++ rest) = upperLimit L TH pre :=
  upperLimitGo_break L TH pre rest (fun _ => 0) h

/-- C9. `get_site_stream` never looks past the first 1000 records of the clean
download stream: its output on any clean stream equals its output on that
stream's first 1000 records, and every emitted record originates (via
`add_predictions`) from one of those first 1000 records — regardless of the
stream's length or of any quota being unfilled. -/
theorem getSiteStream_first_1000 (L : List String) (TH : String → ℚ)
    (predict : String → List (String × ℚ)) (clean : List RawRec) :
    getSiteStream L TH predict clean = getSiteStream L TH predict (clean.take 1000) ∧
    ∀ s ∈ getSiteStream L TH predict clean,
      ∃ r ∈ clean.take 1000, s.doc = addPredictions predict r := by
  constructor
  · unfold getSiteStream
    rw [List.take_take, min_self]
  · intro s hs
    have hdoc := (upperLimitGo_sections L TH
      ((clean.take 1000).map (addPredictions predict)) (fun _ => 0) s hs).1
    rcases List.mem_map.1 hdoc with ⟨r, hr, hfr⟩
    exact ⟨r, hr, hfr.symm⟩

theorem contentLe_trans : ∀ a b c : ContentItem,
    contentLe a b → contentLe b c → contentLe a c := by
  intro a b c hab hbc
  exact le_trans hab hbc

theorem contentLe_total : ∀ a b : ContentItem, contentLe a b ∨ contentLe b a := by
  intro a b
  exact le_total _ _

/-- C8. Every section produced by `get_site_content` lists its finalized
content — after the per-section re-dedup by `abstract` — in non-increasing
`created` order: the bucket is sorted ascending by `created` and then
reversed, so the most recent entry comes first. -/
theorem getSiteContent_sorted (sectionLabels : List String) (TH : String → ℚ)
    (stream0 : List SectionedDoc) (sec : String × List ContentItem)
    (hsec : sec ∈ getSiteContent sectionLabels TH stream0) :
    sec.2.Pairwise (fun a b => b.item.doc.created ≤ a.item.doc.created) := by
  rcases List.mem_map.1 hsec with ⟨lab, _, heq⟩
  rw [← heq]
  simp only []
  rw [List.pairwise_reverse]
  haveI : IsTotal ContentItem contentLe := ⟨contentLe_total⟩
  haveI : IsTrans ContentItem contentLe := ⟨contentLe_trans⟩
  exact List.sorted_insertionSort contentLe _

/-- A concrete raw record used to exercise the theorems on sample data. -/
def rawA : RawRec :=
  ⟨"2024-01-02T10:00:00", "Paper X", "Abstract X", "http://x", ["s0"]⟩

/-- A second raw record with the same `abstract` but an older date. -/
def rawB : RawRec :=
  ⟨"2024-01-01T09:00:00", "Paper X v1", "Abstract X", "http://x1", ["s0"]⟩

/-- A concrete record-with-predictions: one sentence whose prediction gives
label `"a"` probability `2` (an integer-valued rational, so that kernel
evaluation of the pipeline on this record is cheap). -/
def docA : Doc :=
  ⟨"2024-01-02", "Paper X", "Abstract X", "http://x", ["s0"], [[("a", 2)]]⟩

/-- `docA` as emitted by `upper_limit` with section `"a"` attached. -/
def sdocA : SectionedDoc := ⟨docA, ["a"]⟩

/-- A record whose 50 per-sentence predictions each certainly qualify label
`"a"`, exhausting the quota in one record. -/
def docFull : Doc :=
  ⟨"2024-01-01", "Paper F", "Abstract F", "http://f", [],
    List.replicate 50 [("a", 1)]⟩

/-- A concrete annotation stream over the spec's answer alphabet. -/
def annsA : List AnnotRec :=
  [⟨"t1", "lab1", "accept"⟩, ⟨"t1", "lab2", "reject"⟩,
   ⟨"t2", "lab1", "ignore"⟩, ⟨"t1", "lab1", "reject"⟩]

theorem dedupStream_first_occurrence_witness :
    rawA.abstract = rawB.abstract ∧
    dedupStream (fun r : RawRec => r.abstract) [rawA, rawB] = [rawA] :=
  ⟨by decide,
   (dedupStream_first_occurrence (fun r : RawRec => r.abstract) [rawA, rawB]).2.2
     rawA rawB (by decide)⟩

theorem accumulate_matches_spec_witness :
    (∀ a ∈ annsA, a.answer = "accept" ∨ a.answer = "reject" ∨ a.answer = "ignore") ∧
    (accumulateTrainStream (sentenceDataToTrainFormat annsA) = specAccumulate annsA ∧
     ∀ e ∈ accumulateTrainStream (sentenceDataToTrainFormat annsA),
       ∀ p ∈ e.categories,
         ∃ a ∈ annsA, ¬ a.answer = "ignore" ∧ a.text = e.text ∧ a.label = p.1) :=
  ⟨by decide, accumulate_matches_spec annsA (by decide)⟩

theorem upperLimit_threshold_gate_witness :
    (sdocA ∈ upperLimit ["a"] (fun _ => (0 : ℚ)) [docA]) ∧
    ("a" ∈ sdocA.sections) ∧
    ∃ sent ∈ sdocA.doc.preds, ∃ p : ℚ, ("a", p) ∈ sent ∧ (0 : ℚ) < p :=
  ⟨by decide, by decide,
   upperLimit_threshold_gate ["a"] (fun _ => (0 : ℚ)) [docA] sdocA (by decide)
     "a" (by decide)⟩

set_option maxRecDepth 10000 in
theorem upperLimit_early_termination_witness :
    allFull ["a"] (trackAfter ["a"] (fun _ => (0 : ℚ)) (fun _ => 0) [docFull]) ∧
    upperLimit ["a"] (fun _ => (0 : ℚ)) ([docFull] ++ [docA]) =
      upperLimit ["a"] (fun _ => (0 : ℚ)) [docFull] :=
  ⟨by decide,
   upperLimit_early_termination ["a"] (fun _ => (0 : ℚ)) [docFull] [docA] (by decide)⟩

theorem getSiteStream_first_1000_witness :
    ((⟨addPredictions (fun _ => [("a", (2 : ℚ))]) rawA, ["a"]⟩ : SectionedDoc) ∈
      getSiteStream ["a"] (fun _ => (0 : ℚ)) (fun _ => [("a", (2 : ℚ))]) [rawA]) ∧
    ∃ r ∈ ([rawA].take 1000),
      (⟨addPredictions (fun _ => [("a", (2 : ℚ))]) rawA, ["a"]⟩ : SectionedDoc).doc =
        addPredictions (fun _ => [("a", (2 : ℚ))]) r :=
  ⟨by decide,
   (getSiteStream_first_1000 ["a"] (fun _ => (0 : ℚ))
     (fun _ => [("a", (2 : ℚ))]) [rawA]).2 _ (by decide)⟩

theorem upperLimit_sections_subset_labels_witness :
    (sdocA ∈ upperLimit ["a"] (fun _ => (0 : ℚ)) [docA]) ∧
    ("a" ∈ sdocA.sections) ∧ ("a" ∈ (["a"] : List String)) ∧
    ("b" ∉ (["a"] : List String)) ∧
    trackAfter ["a"] (fun _ => (0 : ℚ)) (fun _ => 0) [docA] "b" = 0 :=
  ⟨by decide, by decide,
   (upperLimit_sections_subset_labels ["a"] (fun _ => (0 : ℚ)) [docA]).1
     sdocA (by decide) "a" (by decide),
   by decide,
   (upperLimit_sections_subset_labels ["a"] (fun _ => (0 : ℚ)) [docA]).2
     "b" (by decide)⟩

theorem getSiteContent_sorted_witness :
    (("a", ([] : List ContentItem)) ∈
      getSiteContent ["a"] (fun _ => (0 : ℚ)) []) ∧
    ([] : List ContentItem).Pairwise
      (fun a b => b.item.doc.created ≤ a.item.doc.created) :=
  ⟨by decide,
   getSiteContent_sorted ["a"] (fun _ => (0 : ℚ)) [] ("a", []) (by decide)⟩
